import Mathlib

/-!
Shallow embedding of the audio-to-feature pipeline of `jack_visualiser.py`:
the capture deque shared between the JACK process callback and the analysis
loop, the frame extractor, the frequency-bin aggregator, and the weight
normalizer of `generate_images`.

Conventions:
* The Python `collections.deque` is a `List` whose head is the LEFT end:
  `appendleft x d = x :: d`, and `deque.pop` removes the RIGHT end (the last
  element of the list).
* Audio samples are 32-bit signed integers, modelled as `ℤ` (the sums the
  code computes never leave the int64 range numpy uses, so no wraparound is
  modelled).
* Spectral density values are modelled as `ℚ` for the aggregator (its claims
  are exact structural facts), and latent values as `ℝ` for the normalizer
  (whose contract involves the Euclidean norm).
-/

/-- One stereo capture instant: `(left, right)` 32-bit samples,
as produced by `unpack_bytes` on the two port buffers. -/
abbrev SampleFrame := ℤ × ℤ

/-- `deque.appendleft`: the process callback pushes each new stereo pair at
the left end of `raw_audio` (line 128 of the source). -/
def appendleft (x : SampleFrame) (d : List SampleFrame) : List SampleFrame :=
  x :: d

/-- `deque.pop`: removes and returns the RIGHT-most element (Python's
`deque.pop` pops the right end); `none` on an empty deque (Python raises
`IndexError`). -/
def dequePop : List SampleFrame → Option (SampleFrame × List SampleFrame)
  | [] => none
  | [x] => some (x, [])
  | x :: y :: ys => (dequePop (y :: ys)).map (fun p => (p.1, x :: p.2))

/-- The pop loop of `generate_periodogram_from_audio` line 53:
`[audio_buffer.pop() for _ in range(samples_per_frame)]`.
Returns the popped elements in pop order together with the remaining
buffer; `none` if the buffer underruns (cannot happen after the length
check of line 49). -/
def popN : ℕ → List SampleFrame → Option (List SampleFrame × List SampleFrame)
  | 0, buf => some ([], buf)
  | n + 1, buf =>
    match dequePop buf with
    | none => none
    | some (x, rest) => (popN n rest).map (fun p => (x :: p.1, p.2))

/-- Sum of a stereo pair: one element of `np.sum(audio, axis=1)` (line 54). -/
def monoSum (p : SampleFrame) : ℤ := p.1 + p.2

/-- `extract`: the successful body of the wait loop of
`generate_periodogram_from_audio` (lines 53-54): pop `frame_count` frames
newest-end-first from the deque's right end and reduce each stereo pair to
a mono sample by summation, in pop order. -/
def extract (buf : List SampleFrame) (frame_count : ℕ) :
    Option (List ℤ × List SampleFrame) :=
  (popN frame_count buf).map (fun p => (p.1.map monoSum, p.2))

/-- The body of the JACK `process` callback (lines 127-128): zip the two
channel buffers and `appendleft` each stereo pair in order onto the deque. -/
def process (buffer_one buffer_two : List ℤ) (d : List SampleFrame) :
    List SampleFrame :=
  (List.zip buffer_one buffer_two).foldl (fun b p => appendleft p b) d

/-- Appending a list of frames one by one (arrival order = list order). -/
def appendAll (frames : List SampleFrame) (d : List SampleFrame) :
    List SampleFrame :=
  frames.foldl (fun b f => appendleft f b) d

-- ### BinAggregator: `aggressive_array_split` and the per-group sums

/-- `np.split(a, parts)` for an integer `parts`: `parts` contiguous
sections, the first of length `g`, the next of length `g` of what remains,
and so on (the caller guarantees `g * parts = len a`, as numpy requires for
an equal split). -/
def npSplit (l : List ℚ) (parts g : ℕ) : List (List ℚ) :=
  match parts with
  | 0 => []
  | p + 1 => l.take g :: npSplit (l.drop g) p g

/-- `aggressive_array_split` (lines 30-33): drop the `len % parts` trailing
entries, then split into `parts` equal contiguous sections. -/
def aggressive_array_split (array : List ℚ) (parts : ℕ) : List (List ℚ) :=
  npSplit (array.take (array.length - array.length % parts)) parts
    ((array.length - array.length % parts) / parts)

/-- The aggregation step of `generate_periodogram_from_audio` (lines 59-61):
split the periodogram and sum each section
(`np.sum(periodogram_split, axis=1)`; for a split whose sections are empty
numpy yields `0.0` per row, which `List.sum [] = 0` matches). -/
def aggregate (psd : List ℚ) (bin_count : ℕ) : List ℚ :=
  (aggressive_array_split psd bin_count).map List.sum

-- ### WeightNormalizer: the noise combination of `generate_images`

/-- Scale a latent vector by one weight: one row of
`weights.reshape(len(all_input_noise), 1) * all_input_noise` (line 83). -/
def scaleVec (c : ℝ) (v : List ℝ) : List ℝ := v.map (fun x => c * x)

/-- Elementwise sum of two latent vectors. -/
def vecAdd (u v : List ℝ) : List ℝ := List.zipWith (· + ·) u v

/-- `np.sum(weighted_noise, axis=0)` (line 84): elementwise sum of the
scaled rows. -/
def vecSum : List (List ℝ) → List ℝ
  | [] => []
  | [v] => v
  | v :: w :: ws => vecAdd v (vecSum (w :: ws))

/-- The weighted elementwise sum across the seed rows (lines 83-84). -/
def weightedSum (weights : List ℝ) (basis : List (List ℝ)) : List ℝ :=
  vecSum (List.zipWith scaleVec weights basis)

/-- Sum of squares of the entries: the square of the Euclidean norm
`np.linalg.norm(·, ord=2)` computes. -/
def normSq (v : List ℝ) : ℝ := (v.map (fun x => x * x)).sum

/-- `combine` (lines 83-85): weighted sum of the noise rows divided by its
Euclidean norm. IEEE division of the all-zero sum by its zero norm yields a
vector of NaN (`0.0/0.0`); the embedding makes that partiality explicit, so
`none` models exactly the unguarded non-finite outcome. -/
noncomputable def combine (weights : List ℝ) (basis : List (List ℝ)) :
    Option (List ℝ) :=
  let s := weightedSum weights basis
  let n := Real.sqrt (normSq s)
  if n = 0 then none else some (s.map (fun x => x / n))

-- ### Normalizer lemmas

theorem normSq_nonneg (v : List ℝ) : 0 ≤ normSq v := by
  induction v with
  | nil => simp [normSq]
  | cons x xs ih =>
    simp only [normSq, List.map_cons, List.sum_cons]
    exact add_nonneg (mul_self_nonneg x) ih

theorem normSq_replicate_zero (n : ℕ) : normSq (List.replicate n 0) = 0 := by
  induction n with
  | zero => simp [normSq]
  | succ k ih =>
    simp only [List.replicate_succ, normSq, List.map_cons, List.sum_cons] at ih ⊢
    simp [ih]

theorem normSq_eq_zero_iff (v : List ℝ) :
    normSq v = 0 ↔ v = List.replicate v.length 0 := by
  induction v with
  | nil => simp [normSq]
  | cons x xs ih =>
    constructor
    · intro h
      have hsum : x * x + normSq xs = 0 := by simpa [normSq] using h
      have hx2 : 0 ≤ x * x := mul_self_nonneg x
      have hxs : 0 ≤ normSq xs := normSq_nonneg xs
      have hx : x = 0 := by nlinarith
      have hz : xs = List.replicate xs.length 0 := ih.1 (by nlinarith)
      simp only [List.length_cons, List.replicate_succ, List.cons.injEq]
      exact ⟨hx, hz⟩
    · intro h
      rw [h]
      exact normSq_replicate_zero _

theorem normSq_map_div (v : List ℝ) (c : ℝ) :
    normSq (v.map (fun x => x / c)) = normSq v / (c * c) := by
  induction v with
  | nil => simp [normSq]
  | cons x xs ih =>
    simp only [normSq, List.map_cons, List.map_map, List.sum_cons] at ih ⊢
    rw [ih, div_mul_div_comm, add_div]

theorem scaleVec_one (v : List ℝ) : scaleVec 1 v = v := by
  simp [scaleVec]

theorem scaleVec_zero (v : List ℝ) :
    scaleVec 0 v = List.replicate v.length 0 := by
  induction v with
  | nil => rfl
  | cons x xs ih =>
    simp only [scaleVec, List.map_cons, zero_mul, List.length_cons,
      List.replicate_succ, List.cons.injEq, true_and]
    simpa only [scaleVec, zero_mul] using ih

theorem vecAdd_replicate_zero (n : ℕ) :
    vecAdd (List.replicate n 0) (List.replicate n 0) = List.replicate n 0 := by
  induction n with
  | zero => rfl
  | succ k ih =>
    simp only [List.replicate_succ, vecAdd, List.zipWith_cons_cons] at ih ⊢
    simp [ih]

theorem vecAdd_replicate_right (v : List ℝ) :
    vecAdd v (List.replicate v.length 0) = v := by
  induction v with
  | nil => rfl
  | cons x xs ih =>
    simp only [List.length_cons, List.replicate_succ, vecAdd,
      List.zipWith_cons_cons, add_zero, List.cons.injEq, true_and] at ih ⊢
    exact ih

theorem vecAdd_all_zero : ∀ u v : List ℝ, (∀ x ∈ u, x = 0) →
    (∀ x ∈ v, x = 0) → ∀ x ∈ vecAdd u v, x = 0 := by
  intro u
  induction u with
  | nil => intro v _ _; simp [vecAdd]
  | cons a u ih =>
    intro v hu hv
    cases v with
    | nil => simp [vecAdd]
    | cons b v =>
      intro x hx
      simp only [vecAdd, List.zipWith_cons_cons, List.mem_cons] at hx
      rcases hx with h | h
      · rw [h, hu a (List.mem_cons_self a u), hv b (List.mem_cons_self b v),
          add_zero]
      · exact ih v (fun y hy => hu y (List.mem_cons_of_mem a hy))
          (fun y hy => hv y (List.mem_cons_of_mem b hy)) x h

theorem vecSum_all_zero : ∀ rows : List (List ℝ),
    (∀ r ∈ rows, ∀ x ∈ r, x = 0) → ∀ x ∈ vecSum rows, x = 0 := by
  intro rows
  induction rows with
  | nil => simp [vecSum]
  | cons r rs ih =>
    intro h
    cases rs with
    | nil => simpa [vecSum] using h r (List.mem_cons_self r [])
    | cons s ss =>
      have h1 : ∀ x ∈ r, x = 0 := h r (List.mem_cons_self r (s :: ss))
      have h2 : ∀ x ∈ vecSum (s :: ss), x = 0 :=
        ih (fun q hq => h q (List.mem_cons_of_mem r hq))
      exact vecAdd_all_zero r (vecSum (s :: ss)) h1 h2

theorem zipWith_zero_weights_rows : ∀ (k : ℕ) (basis : List (List ℝ)),
    ∀ r ∈ List.zipWith scaleVec (List.replicate k 0) basis, ∀ x ∈ r, x = 0 := by
  intro k
  induction k with
  | zero => simp
  | succ n ih =>
    intro basis
    cases basis with
    | nil => simp
    | cons b bs =>
      intro r hr
      rw [List.replicate_succ] at hr
      simp only [List.zipWith_cons_cons, List.mem_cons] at hr
      rcases hr with h | h
      · intro x hx
        rw [h] at hx
        simp only [scaleVec, List.mem_map] at hx
        rcases hx with ⟨a, _, rfl⟩
        exact zero_mul a
      · exact ih bs r h

theorem normSq_of_all_zero (v : List ℝ) (h : ∀ x ∈ v, x = 0) :
    normSq v = 0 := by
  have hv : v = List.replicate v.length 0 := List.eq_replicate_iff.mpr ⟨rfl, h⟩
  rw [hv]
  exact normSq_replicate_zero _

/-- Claim C2 (the code lacks the guard the claim requires): for every
all-zero weight vector (any length) and every noise basis, the weighted
sum is the zero vector, its Euclidean norm is zero, and the unguarded
division of line 85 divides `0.0` by `0.0`, producing the non-finite (NaN)
outcome modelled by `none` — `combine` neither signals a
`DegenerateDirection` error nor applies any fallback. -/
theorem combine_zero_weights_nan (k : ℕ) (basis : List (List ℝ)) :
    combine (List.replicate k 0) basis = none := by
  have h0 : normSq (weightedSum (List.replicate k 0) basis) = 0 :=
    normSq_of_all_zero _
      (vecSum_all_zero _ (zipWith_zero_weights_rows k basis))
  simp [combine, h0, Real.sqrt_zero]

/-- Claim C5: whenever the weighted elementwise sum of the noise rows is
not the zero vector, `combine` returns that sum divided componentwise by
its Euclidean norm, and the Euclidean (L2) norm of the result is exactly
1. -/
theorem combine_unit_norm (w : List ℝ) (basis : List (List ℝ))
    (hlen : w.length = basis.length)
    (hnz : weightedSum w basis
      ≠ List.replicate (weightedSum w basis).length 0) :
    combine w basis
      = some ((weightedSum w basis).map
          (fun x => x / Real.sqrt (normSq (weightedSum w basis))))
    ∧ Real.sqrt (normSq ((weightedSum w basis).map
        (fun x => x / Real.sqrt (normSq (weightedSum w basis))))) = 1 := by
  have hns : normSq (weightedSum w basis) ≠ 0 :=
    fun h => hnz ((normSq_eq_zero_iff _).1 h)
  have hpos : 0 < normSq (weightedSum w basis) :=
    lt_of_le_of_ne (normSq_nonneg _) (Ne.symm hns)
  have hsq : Real.sqrt (normSq (weightedSum w basis)) ≠ 0 :=
    ne_of_gt (Real.sqrt_pos.mpr hpos)
  refine ⟨by simp [combine, hsq], ?_⟩
  rw [normSq_map_div, Real.mul_self_sqrt (normSq_nonneg _), div_self hns,
    Real.sqrt_one]

theorem combine_unit_norm_witness :
    combine [(1 : ℝ)] [[3, 4]]
      = some ((weightedSum [(1 : ℝ)] [[3, 4]]).map
          (fun x => x / Real.sqrt (normSq (weightedSum [(1 : ℝ)] [[3, 4]]))))
    ∧ Real.sqrt (normSq ((weightedSum [(1 : ℝ)] [[3, 4]]).map
        (fun x => x / Real.sqrt (normSq (weightedSum [(1 : ℝ)] [[3, 4]])))))
      = 1 := by
  apply combine_unit_norm [(1 : ℝ)] [[3, 4]] rfl
  have hws : weightedSum [(1 : ℝ)] [[3, 4]] = [3, 4] := by
    norm_num [weightedSum, vecSum, scaleVec]
  rw [hws]
  have hr : List.replicate ([(3 : ℝ), 4].length) (0 : ℝ) = [0, 0] := rfl
  rw [hr]
  simp

/-- Claim C7: with three equal-length noise rows `[v0, v1, v2]` and the
weight vector `[1, 0, 0]`, the weighted sum reduces to `v0` alone, so
`combine` returns exactly `v0` divided componentwise by its Euclidean norm,
provided `v0` is not the zero vector. -/
theorem combine_single_weight (v0 v1 v2 : List ℝ)
    (h1 : v1.length = v0.length) (h2 : v2.length = v0.length)
    (hv : v0 ≠ List.replicate v0.length 0) :
    combine [1, 0, 0] [v0, v1, v2]
      = some (v0.map (fun x => x / Real.sqrt (normSq v0))) := by
  have hws : weightedSum [1, 0, 0] [v0, v1, v2] = v0 := by
    show vecSum [scaleVec 1 v0, scaleVec 0 v1, scaleVec 0 v2] = v0
    show vecAdd (scaleVec 1 v0) (vecAdd (scaleVec 0 v1) (scaleVec 0 v2)) = v0
    rw [scaleVec_one, scaleVec_zero, scaleVec_zero, h1, h2,
      vecAdd_replicate_zero, vecAdd_replicate_right]
  have hns : normSq v0 ≠ 0 := fun h => hv ((normSq_eq_zero_iff v0).1 h)
  have hpos : 0 < normSq v0 := lt_of_le_of_ne (normSq_nonneg v0) (Ne.symm hns)
  have hsq : Real.sqrt (normSq v0) ≠ 0 := ne_of_gt (Real.sqrt_pos.mpr hpos)
  simp [combine, hws, hsq]

theorem combine_single_weight_witness :
    combine [1, 0, 0] [[(3 : ℝ), 4], [0, 0], [0, 0]]
      = some ([(3 : ℝ), 4].map
          (fun x => x / Real.sqrt (normSq [(3 : ℝ), 4]))) := by
  apply combine_single_weight [(3 : ℝ), 4] [0, 0] [0, 0] rfl rfl
  have hr : List.replicate ([(3 : ℝ), 4].length) (0 : ℝ) = [0, 0] := rfl
  rw [hr]
  simp

-- ### Aggregator lemmas

theorem npSplit_length (l : List ℚ) (parts g : ℕ) :
    (npSplit l parts g).length = parts := by
  induction parts generalizing l with
  | zero => rfl
  | succ p ih => simp [npSplit, ih]

theorem npSplit_flatten (l : List ℚ) (parts g : ℕ) (h : l.length = parts * g) :
    (npSplit l parts g).flatten = l := by
  induction parts generalizing l with
  | zero =>
    have : l = [] := List.eq_nil_of_length_eq_zero (by simpa using h)
    simp [npSplit, this]
  | succ p ih =>
    have hd : (l.drop g).length = p * g := by
      simp [List.length_drop, h, Nat.succ_mul]
    simp [npSplit, ih (l.drop g) hd]

theorem npSplit_mem_length (l : List ℚ) (parts g : ℕ)
    (h : l.length = parts * g) :
    ∀ c ∈ npSplit l parts g, c.length = g := by
  induction parts generalizing l with
  | zero => simp [npSplit]
  | succ p ih =>
    intro c hc
    simp only [npSplit, List.mem_cons] at hc
    rcases hc with hc | hc
    · subst hc
      simp [List.length_take, h, Nat.succ_mul]
    · exact ih (l.drop g) (by simp [List.length_drop, h, Nat.succ_mul]) c hc

theorem npSplit_nil (parts g : ℕ) :
    npSplit [] parts g = List.replicate parts [] := by
  induction parts with
  | zero => rfl
  | succ p ih => simp [npSplit, ih, List.replicate_succ]

/-- Claim C3: for every PSD vector `psd` with `len(psd) >= bin_count` and
`bin_count > 0`, `aggregate(psd, bin_count)` returns a vector of length
exactly `bin_count`. -/
theorem aggregate_length_eq_bin_count (psd : List ℚ) (bin_count : ℕ)
    (hbc : 0 < bin_count) (hlen : bin_count ≤ psd.length) :
    (aggregate psd bin_count).length = bin_count := by
  simp [aggregate, aggressive_array_split, npSplit_length]

theorem aggregate_length_eq_bin_count_witness :
    (aggregate [1, 2, 3, 4, 5] 2).length = 2 :=
  aggregate_length_eq_bin_count [1, 2, 3, 4, 5] 2 (by decide) (by decide)

/-- Claim C6: for every `psd` with `len(psd) >= bin_count > 0`, the sum of
the weights `aggregate` returns never exceeds the sum of the truncated
input (the first `len(psd) - len(psd) % bin_count` entries); the split
groups concatenate back to exactly the truncated input (contiguous, in
order, no double counting) and all groups have equal length. -/
theorem aggregate_sum_bounded_by_truncated (psd : List ℚ) (bin_count : ℕ)
    (hbc : 0 < bin_count) (hlen : bin_count ≤ psd.length) :
    (aggregate psd bin_count).sum
        ≤ (psd.take (psd.length - psd.length % bin_count)).sum
      ∧ (aggressive_array_split psd bin_count).flatten
        = psd.take (psd.length - psd.length % bin_count)
      ∧ (aggressive_array_split psd bin_count).length = bin_count
      ∧ ∀ c ∈ aggressive_array_split psd bin_count,
          c.length = psd.length / bin_count := by
  have hmod : bin_count * (psd.length / bin_count) + psd.length % bin_count
      = psd.length := Nat.div_add_mod _ _
  have he : psd.length - psd.length % bin_count
      = bin_count * (psd.length / bin_count) := by omega
  have hg : (psd.length - psd.length % bin_count) / bin_count
      = psd.length / bin_count := by
    rw [he, Nat.mul_div_cancel_left _ hbc]
  have htl : (psd.take (psd.length - psd.length % bin_count)).length
      = bin_count * ((psd.length - psd.length % bin_count) / bin_count) := by
    rw [List.length_take, hg, ← he]
    omega
  have hflat : (aggressive_array_split psd bin_count).flatten
      = psd.take (psd.length - psd.length % bin_count) :=
    npSplit_flatten _ _ _ htl
  refine ⟨?_, hflat, npSplit_length _ _ _, ?_⟩
  · apply le_of_eq
    rw [aggregate, aggressive_array_split, ← List.sum_flatten]
    rw [show (npSplit (psd.take (psd.length - psd.length % bin_count))
        bin_count ((psd.length - psd.length % bin_count) / bin_count)).flatten
      = psd.take (psd.length - psd.length % bin_count) from hflat]
  · intro c hc
    rw [← hg]
    exact npSplit_mem_length _ _ _ htl c hc

theorem aggregate_sum_bounded_by_truncated_witness :
    (aggregate [1, 2, 3, 4, 5] 2).sum
        ≤ (List.take ((5 : ℕ) - 5 % 2) [(1 : ℚ), 2, 3, 4, 5]).sum
      ∧ (aggressive_array_split [1, 2, 3, 4, 5] 2).flatten
        = List.take ((5 : ℕ) - 5 % 2) [(1 : ℚ), 2, 3, 4, 5]
      ∧ (aggressive_array_split [1, 2, 3, 4, 5] 2).length = 2
      ∧ ∀ c ∈ aggressive_array_split [1, 2, 3, 4, 5] 2,
          c.length = 5 / 2 := by
  have h := aggregate_sum_bounded_by_truncated [1, 2, 3, 4, 5] 2
    (by decide) (by decide)
  simpa using h

/-- Claim C10: for every `psd` with `0 < len(psd) < bin_count`, aggregation
does not fail: truncation leaves the empty list, the split yields
`bin_count` empty groups, and the per-group sums give a vector of
`bin_count` zeros (so the shape assertion of line 63 still passes). -/
theorem aggregate_short_input_zeros (psd : List ℚ) (bin_count : ℕ)
    (hpos : 0 < psd.length) (hlt : psd.length < bin_count) :
    aggregate psd bin_count = List.replicate bin_count 0 := by
  have hmod : psd.length % bin_count = psd.length := Nat.mod_eq_of_lt hlt
  simp [aggregate, aggressive_array_split, hmod, npSplit_nil,
    List.map_replicate]

theorem aggregate_short_input_zeros_witness :
    aggregate [1, 2, 3] 5 = List.replicate 5 0 :=
  aggregate_short_input_zeros [1, 2, 3] 5 (by decide) (by decide)

-- ### Deque lemmas

theorem dequePop_append (l : List SampleFrame) (a : SampleFrame) :
    dequePop (l ++ [a]) = some (a, l) := by
  induction l with
  | nil => rfl
  | cons x xs ih =>
    cases xs with
    | nil => simp [dequePop]
    | cons y ys =>
      simp only [List.cons_append] at ih ⊢
      simp [dequePop, ih]

theorem popN_append (popped extra : List SampleFrame) :
    popN popped.length (extra ++ popped.reverse) = some (popped, extra) := by
  induction popped generalizing extra with
  | nil => simp [popN]
  | cons x xs ih =>
    have h : extra ++ (x :: xs).reverse = (extra ++ xs.reverse) ++ [x] := by
      simp
    simp only [List.length_cons, popN, h, dequePop_append, ih]
    rfl

theorem popN_spec (buf : List SampleFrame) (n : ℕ) (h : n ≤ buf.length) :
    popN n buf = some (buf.reverse.take n, (buf.reverse.drop n).reverse) := by
  have hlen : (buf.reverse.take n).length = n := by
    simp [List.length_take, List.length_reverse]
    omega
  have hbuf : buf = (buf.reverse.drop n).reverse ++ (buf.reverse.take n).reverse := by
    rw [← List.reverse_append, List.take_append_drop, List.reverse_reverse]
  calc popN n buf
      = popN (buf.reverse.take n).length
          ((buf.reverse.drop n).reverse ++ (buf.reverse.take n).reverse) := by
        rw [hlen, ← hbuf]
    _ = some (buf.reverse.take n, (buf.reverse.drop n).reverse) := by
        rw [popN_append]

theorem appendAll_nil_eq (frames : List SampleFrame) :
    appendAll frames [] = frames.reverse := by
  have h : ∀ d, appendAll frames d = frames.reverse ++ d := by
    intro d
    induction frames generalizing d with
    | nil => simp [appendAll]
    | cons f fs ih =>
      simp only [appendAll, List.foldl_cons] at ih ⊢
      rw [ih (appendleft f d)]
      simp [appendleft]
  simpa using h []

theorem process_eq (b1 b2 : List ℤ) (d : List SampleFrame) :
    process b1 b2 d = (List.zip b1 b2).reverse ++ d := by
  unfold process
  generalize List.zip b1 b2 = pairs
  induction pairs generalizing d with
  | nil => simp
  | cons p ps ih =>
    simp only [List.foldl_cons]
    rw [ih (appendleft p d)]
    simp [appendleft]

theorem extract_spec (buf : List SampleFrame) (n : ℕ) (h : n ≤ buf.length) :
    extract buf n
      = some ((buf.reverse.take n).map monoSum, (buf.reverse.drop n).reverse) := by
  simp [extract, popN_spec buf n h]

-- ### The frame extractor's pop order (claims about the capture deque)

/-- Claim C1, counterexample: appending frames `A=(1,0)`, `B=(2,0)`,
`C=(3,0)` in that order and extracting 2 frames does NOT return the mono
samples `[3, 2]` (i.e. `[C, B]`) that the newest-first pop policy of the
claim predicts; the deque pops the oldest end. -/
theorem extract_scenario_not_newest_first :
    ¬ (extract (appendleft (3, 0) (appendleft (2, 0) (appendleft (1, 0) []))) 2
        = some ([3, 2], [(1, 0)])) := by
  decide

/-- Claim C1, amended: the process callback appends at the LEFT end of the
deque and the extractor pops from the RIGHT end, so extraction consumes the
LEAST recently appended frames first (FIFO): if frames are appended in
order, extracting `n` of them returns the mono sums of the first `n`
frames in arrival order. -/
theorem extract_fifo_oldest_first (frames : List SampleFrame) (n : ℕ)
    (h : n ≤ frames.length) :
    extract (appendAll frames []) n
      = some ((frames.take n).map monoSum, (frames.drop n).reverse) := by
  rw [appendAll_nil_eq, extract,
    popN_spec frames.reverse n (by simpa using h)]
  simp

theorem extract_fifo_oldest_first_witness :
    extract (appendAll [((1 : ℤ), (0 : ℤ)), (2, 0), (3, 0)] []) 2
      = some ([1, 2], [(3, 0)]) := by
  rw [extract_fifo_oldest_first [(1, 0), (2, 0), (3, 0)] 2 (by decide)]
  decide

/-- Claim C4: once the buffer holds at least `frame_count > 0` frames,
`extract` pops exactly `frame_count` SampleFrame entries and returns a
MonoFrame of exactly `frame_count` elements (never fewer), each element
the sum of the left and right samples of one popped pair, in pop order. -/
theorem extract_exact_frame_count (buf : List SampleFrame) (n : ℕ)
    (hn : 0 < n) (h : n ≤ buf.length) :
    ∃ popped rest, popN n buf = some (popped, rest)
      ∧ popped.length = n
      ∧ extract buf n = some (popped.map monoSum, rest)
      ∧ (popped.map monoSum).length = n := by
  refine ⟨buf.reverse.take n, (buf.reverse.drop n).reverse,
    popN_spec buf n h, ?_, extract_spec buf n h, ?_⟩ <;>
  · simp [List.length_take, List.length_reverse]
    omega

theorem extract_exact_frame_count_witness :
    ∃ popped rest, popN 2 [((1 : ℤ), (2 : ℤ)), (3, 4), (5, 6)]
        = some (popped, rest)
      ∧ popped.length = 2
      ∧ extract [((1 : ℤ), (2 : ℤ)), (3, 4), (5, 6)] 2
        = some (popped.map monoSum, rest)
      ∧ (popped.map monoSum).length = 2 :=
  extract_exact_frame_count [(1, 2), (3, 4), (5, 6)] 2 (by decide) (by decide)

/-- Claim C8: for every buffer and `frame_count > 0` available in it, after
a successful `extract` the buffer's length has decreased by exactly
`frame_count`, and extraction only removes: the remaining buffer is an
unmodified contiguous part of the original, with exactly `frame_count`
elements removed. -/
theorem extract_buffer_effect (buf : List SampleFrame) (n : ℕ)
    (hn : 0 < n) (h : n ≤ buf.length) :
    ∃ mono rest removed, extract buf n = some (mono, rest)
      ∧ rest.length = buf.length - n
      ∧ buf = rest ++ removed
      ∧ removed.length = n := by
  refine ⟨(buf.reverse.take n).map monoSum, (buf.reverse.drop n).reverse,
    (buf.reverse.take n).reverse, extract_spec buf n h, ?_, ?_, ?_⟩
  · simp [List.length_reverse, List.length_drop]
  · rw [← List.reverse_append, List.take_append_drop, List.reverse_reverse]
  · simp [List.length_reverse, List.length_take]
    omega

theorem extract_buffer_effect_witness :
    ∃ mono rest removed,
      extract [((1 : ℤ), (1 : ℤ)), (2, 2), (3, 3)] 2 = some (mono, rest)
      ∧ rest.length = 3 - 2
      ∧ [((1 : ℤ), (1 : ℤ)), (2, 2), (3, 3)] = rest ++ removed
      ∧ removed.length = 2 :=
  extract_buffer_effect [(1, 1), (2, 2), (3, 3)] 2 (by decide) (by decide)

/-- Claim C9: stereo pairs delivered to the process callback are consumed
in exact arrival order (oldest first, FIFO), including within a single
callback batch: across two callback invocations, popping `n` pairs yields
the first `n` zipped pairs in delivery order. -/
theorem process_pop_fifo_order (b1 b2 c1 c2 : List ℤ) (n : ℕ)
    (h : n ≤ (List.zip b1 b2).length + (List.zip c1 c2).length) :
    (popN n (process c1 c2 (process b1 b2 []))).map Prod.fst
      = some ((List.zip b1 b2 ++ List.zip c1 c2).take n) := by
  have hbuf : process c1 c2 (process b1 b2 [])
      = (List.zip b1 b2 ++ List.zip c1 c2).reverse := by
    rw [process_eq, process_eq]
    simp
  rw [hbuf, popN_spec _ n (by rw [List.length_reverse, List.length_append]; exact h)]
  simp

theorem process_pop_fifo_order_witness :
    (popN 3 (process [3] [30] (process [1, 2] [10, 20] []))).map Prod.fst
      = some [((1 : ℤ), (10 : ℤ)), (2, 20), (3, 30)] := by
  rw [process_pop_fifo_order [1, 2] [10, 20] [3] [30] 3 (by decide)]
  decide
